import Mathlib

/-!
Verification of the azure-devops-npm-auth CLI (`src/index.ts`).

JavaScript strings are modeled as lists of characters (`Str`).  The
program's single source file is embedded below: the token validator
`isPat`, the two Azure DevOps feed URL templates together with the
matching and capture behaviour of `URLPattern`, the `btoa` base64
encoder, and the line-oriented `.npmrc` rewrite loop of `main`
(lines 133-185 of the source), plus the URL-resolution control flow
of `main` (lines 26-94).
-/

/-- JavaScript strings, modeled as lists of characters. -/
abbrev Str := List Char

/-- Embed a Lean string literal into the character-list model. -/
def str (s : String) : Str := s.data

/-- Characters removed by JavaScript `String.prototype.trim` (the ASCII
subset; the exotic Unicode white-space code points never appear in the
files and claims considered here): space, tab, newline, carriage
return, vertical tab, form feed. -/
def jsWhitespace (c : Char) : Bool :=
  c = ' ' || c = '\t' || c = '\n' || c = '\r' || c = Char.ofNat 11 || c = Char.ofNat 12

/-- Leading-whitespace removal of JS `trim`. -/
def trimStart (s : Str) : Str := s.dropWhile jsWhitespace

/-- Trailing-whitespace removal of JS `trim`. -/
def trimEnd (s : Str) : Str := (s.reverse.dropWhile jsWhitespace).reverse

/-- Model of JS `String.prototype.trim`. -/
def jsTrim (s : Str) : Str := trimEnd (trimStart s)

/-- Model of JS `text.split("\n")`: in particular `"".split("\n")`
is `[""]`, i.e. `splitNl [] = [[]]`. -/
def splitNl : Str → List Str
  | [] => [[]]
  | c :: rest =>
    if c = '\n' then [] :: splitNl rest
    else
      match splitNl rest with
      | [] => [[c]]
      | r :: rs => (c :: r) :: rs

/-- Model of JS `lines.join("\n")`. -/
def joinNl : List Str → Str
  | [] => []
  | [l] => l
  | l :: ls => l ++ '\n' :: joinNl ls

/-- The base64 alphabet used by JS `btoa`. -/
def base64Alphabet : Str :=
  str "ABCDEFGHIJKLMNOPQRSTUVWXYZabcdefghijklmnopqrstuvwxyz0123456789+/"

/-- The base64 digit character for a 6-bit value. -/
def b64digit (n : Nat) : Char := base64Alphabet.getD n 'A'

/-- Base64-encode a byte sequence (RFC 4648, with `=` padding), exactly
as JS `btoa` does. -/
def btoaBytes : List Nat → Str
  | [] => []
  | [b1] => [b64digit (b1 / 4), b64digit (b1 % 4 * 16), '=', '=']
  | [b1, b2] =>
    [b64digit (b1 / 4), b64digit (b1 % 4 * 16 + b2 / 16), b64digit (b2 % 16 * 4), '=']
  | b1 :: b2 :: b3 :: rest =>
    b64digit (b1 / 4) :: b64digit (b1 % 4 * 16 + b2 / 16) ::
      b64digit (b2 % 16 * 4 + b3 / 64) :: b64digit (b3 % 64) :: btoaBytes rest

/-- Model of JS `btoa`: base64 of the code units of the string.  (JS
`btoa` throws on code points above 255; the program only applies it to
`isPat`-validated ASCII tokens, and the reduction modulo 256 is
invisible on that domain.) -/
def btoa (s : Str) : Str := btoaBytes (s.map (fun c => c.toNat % 256))

/-- One character of the class `[a-z\d]` under the `i` flag:
an ASCII letter or digit. -/
def patChar (c : Char) : Bool :=
  ('a' ≤ c && c ≤ 'z') || ('A' ≤ c && c ≤ 'Z') || ('0' ≤ c && c ≤ '9')

/-- `isPat` from `src/index.ts` line 192-194: the regular expression
test of the anchored pattern of 52 or more case-insensitive
alphanumerics. -/
def isPat (input : Str) : Bool :=
  decide (52 ≤ input.length) && input.all patChar

/-- Characters that can appear inside a single path segment captured by
a `URLPattern` wildcard such as `:organization`.  A segment never
contains `/` (the wildcard matches within one segment), nor the
characters that WHATWG URL parsing would remove or reinterpret before
the pattern is applied (`\\` becomes a path separator, `?` and `#`
begin the query and the fragment, and ASCII tab/newline characters are
stripped).  The embedding therefore covers URL strings that are
already in canonical form, which is the domain the program is used on. -/
def segChar (c : Char) : Bool :=
  !(c = '/' || c = '\\' || c = '?' || c = '#' || c = '\t' || c = '\n' || c = '\r')

/-- A valid single path segment: nonempty, made of segment characters. -/
def isSeg (s : Str) : Bool := !s.isEmpty && s.all segChar

/-- Consume an exact literal at the front of a string. -/
def dropLit (lit s : Str) : Option Str :=
  if lit.isPrefixOf s then some (s.drop lit.length) else none

/-- The organization-scoped feed URL template
`https://pkgs.dev.azure.com/:organization/_packaging/:feed/npm/registry/`. -/
def orgFeedUrl (o f : Str) : Str :=
  str "https://pkgs.dev.azure.com/" ++ o ++ str "/_packaging/" ++ f ++ str "/npm/registry/"

/-- The project-scoped feed URL template
`https://pkgs.dev.azure.com/:organization/:project/_packaging/:feed/npm/registry/`. -/
def projFeedUrl (o p f : Str) : Str :=
  str "https://pkgs.dev.azure.com/" ++ o ++ str "/" ++ p ++ str "/_packaging/" ++ f
    ++ str "/npm/registry/"

/-- `azureDevOpsOrganizationFeedPattern.exec`: match the
organization-scoped template and capture `(organization, feed)`. -/
def execOrgFeed (s : Str) : Option (Str × Str) :=
  match dropLit (str "https://pkgs.dev.azure.com/") s with
  | none => none
  | some s1 =>
    let o := s1.takeWhile segChar
    let s2 := s1.dropWhile segChar
    if o.isEmpty then none
    else
      match dropLit (str "/_packaging/") s2 with
      | none => none
      | some s3 =>
        let f := s3.takeWhile segChar
        let s4 := s3.dropWhile segChar
        if f.isEmpty then none
        else if s4 = str "/npm/registry/" then some (o, f) else none

/-- `azureDevOpsProjectFeedPattern.exec`: match the project-scoped
template and capture `(organization, project, feed)`. -/
def execProjFeed (s : Str) : Option (Str × Str × Str) :=
  match dropLit (str "https://pkgs.dev.azure.com/") s with
  | none => none
  | some s1 =>
    let o := s1.takeWhile segChar
    let s2 := s1.dropWhile segChar
    if o.isEmpty then none
    else
      match dropLit (str "/") s2 with
      | none => none
      | some s2a =>
        let p := s2a.takeWhile segChar
        let s3 := s2a.dropWhile segChar
        if p.isEmpty then none
        else
          match dropLit (str "/_packaging/") s3 with
          | none => none
          | some s4 =>
            let f := s4.takeWhile segChar
            let s5 := s4.dropWhile segChar
            if f.isEmpty then none
            else if s5 = str "/npm/registry/" then some (o, p, f) else none

/-- `pattern.test` as used in `main` lines 42 and 66: a string is a
valid feed URL when either template matches. -/
def testFeedUrl (s : Str) : Bool := (execOrgFeed s).isSome || (execProjFeed s).isSome

/-- `main` lines 86-94: organization capture of the first pattern that
matches (organization-scoped tried first). -/
def feedOrganization (s : Str) : Option Str :=
  match execOrgFeed s with
  | some (o, _) => some o
  | none =>
    match execProjFeed s with
    | some (o, _, _) => some o
    | none => none

/-- The `globalNpmrcKeyPrefix` value `//hostname pathname` computed by
`main` line 137 for an organization-scoped feed URL. -/
def orgFeedKey (o f : Str) : Str :=
  str "//pkgs.dev.azure.com/" ++ o ++ str "/_packaging/" ++ f ++ str "/npm/registry/"

/-- The `globalNpmrcKeyPrefix` value for a project-scoped feed URL. -/
def projFeedKey (o p f : Str) : Str :=
  str "//pkgs.dev.azure.com/" ++ o ++ str "/" ++ p ++ str "/_packaging/" ++ f
    ++ str "/npm/registry/"

/-- `//${feedUrl.hostname}${feedUrl.pathname}` (`main` lines 136-137)
for a string of either feed template: the scheme is dropped and the
host and path are kept verbatim. -/
def feedKey (s : Str) : Option Str :=
  match execOrgFeed s with
  | some (o, f) => some (orgFeedKey o f)
  | none =>
    match execProjFeed s with
    | some (o, p, f) => some (projFeedKey o p f)
    | none => none

/-- `usernamePrefix` of `main` line 140. -/
def usernameKey (P : Str) : Str := P ++ str ":username"

/-- `passwordPrefix` of `main` line 143. -/
def passwordKey (P : Str) : Str := P ++ str ":_password"

/-- `emailPrefix` of `main` line 146. -/
def emailKey (P : Str) : Str := P ++ str ":email"

/-- The replacement line `usernamePrefix=VssSessionToken`. -/
def usernameEntry (P : Str) : Str := usernameKey P ++ str "=VssSessionToken"

/-- The replacement line `passwordPrefix=password`. -/
def passwordEntry (P pw : Str) : Str := passwordKey P ++ '=' :: pw

/-- The replacement line `emailPrefix=not-used@example.com`. -/
def emailEntry (P : Str) : Str := emailKey P ++ str "=not-used@example.com"

/-- `lines[index].trim().startsWith(key)` — the match test of the
rewrite loop (`main` lines 149-163). -/
def lineMatches (key line : Str) : Bool := key.isPrefixOf (jsTrim line)

/-- The body of the per-line loop of `main` lines 148-168: the first
matching of the three checks (username, then password, then email)
replaces the whole line; otherwise the line is kept. -/
def rewriteLine (pw P line : Str) : Str :=
  if lineMatches (usernameKey P) line then usernameEntry P
  else if lineMatches (passwordKey P) line then passwordEntry P pw
  else if lineMatches (emailKey P) line then emailEntry P
  else line

/-- One iteration of the per-feed loop of `main` lines 135-182. Each
line is examined once in its pre-iteration state and replaced in place
(the loop only ever assigns `lines[index]` for the current index), so
the loop is a map; the `replaced…` flags record whether some line
passed the corresponding check, mirroring the `continue`-chained
conditionals; the missing entries are pushed afterwards in
username/password/email order. -/
def processFeed (pw P : Str) (lines : List Str) : List Str :=
  let replacedUsername := lines.any (fun l => lineMatches (usernameKey P) l)
  let replacedPassword := lines.any
    (fun l => !lineMatches (usernameKey P) l && lineMatches (passwordKey P) l)
  let replacedEmail := lines.any
    (fun l => !lineMatches (usernameKey P) l && !lineMatches (passwordKey P) l
      && lineMatches (emailKey P) l)
  lines.map (rewriteLine pw P)
    ++ (if replacedUsername then [] else [usernameEntry P])
    ++ (if replacedPassword then [] else [passwordEntry P pw])
    ++ (if replacedEmail then [] else [emailEntry P])

/-- The whole feed loop of `main` lines 135-182: feeds processed
sequentially in input order over the shared `lines` array. -/
def rewriteAll (pw : Str) (keys : List Str) (lines : List Str) : List Str :=
  keys.foldl (fun ls P => processFeed pw P ls) lines

/-- The Config Rewriter on raw text (`main` lines 133-184): split the
target text on newlines, run the feed loop, join with newlines. -/
def updateNpmrcText (pw : Str) (keys : List Str) (text : Str) : Str :=
  joinNl (rewriteAll pw keys (splitNl text))

/-- The Config Rewriter for a list of validated feed URLs and a raw
token (`main` lines 119 and 133-184): the password is `btoa` of the
token, each URL contributes its `//hostname pathname` key. -/
def updateNpmrcForUrls (token : Str) (urls : List Str) (text : Str) : Str :=
  updateNpmrcText (btoa token) (urls.filterMap feedKey) text

/-- A `globalNpmrcKeyPrefix` arising from a URL matching one of the two
feed templates. -/
def ValidKey (P : Str) : Prop :=
  (∃ o f, isSeg o = true ∧ isSeg f = true ∧ P = orgFeedKey o f) ∨
  (∃ o p f, isSeg o = true ∧ isSeg p = true ∧ isSeg f = true ∧ P = projFeedKey o p f)

/-- The three credential sub-keys written per feed. -/
inductive SubKey
  | username
  | password
  | email
deriving DecidableEq

/-- The sub-key suffix appended to `globalNpmrcKeyPrefix`. -/
def subKeyStr : SubKey → Str
  | SubKey.username => str ":username"
  | SubKey.password => str ":_password"
  | SubKey.email => str ":email"

/-- The full key for one sub-key of one feed. -/
def keyOf (P : Str) (s : SubKey) : Str := P ++ subKeyStr s

/-- The value written for one sub-key. -/
def valOf (pw : Str) : SubKey → Str
  | SubKey.username => str "VssSessionToken"
  | SubKey.password => pw
  | SubKey.email => str "not-used@example.com"

/-- The full `key=value` line written for one sub-key of one feed. -/
def entryOf (pw P : Str) (s : SubKey) : Str := keyOf P s ++ '=' :: valOf pw s

/-- A line that passes none of the three checks of a feed's iteration. -/
def NeverMatches (P l : Str) : Prop := ∀ s : SubKey, lineMatches (keyOf P s) l = false

/-- The shape every line has after the feed loop ran for the feeds in
`keys`: either a generated credential line of one of those feeds, or a
line none of those feeds' checks accept. -/
def LineOK (pw : Str) (keys : List Str) (l : Str) : Prop :=
  (∃ P ∈ keys, ∃ s : SubKey, l = entryOf pw P s) ∨ (∀ P ∈ keys, NeverMatches P l)

/-- A path segment as it occurs between slashes: nonempty, slash-free. -/
def goodSeg (s : Str) : Prop := s ≠ [] ∧ '/' ∉ s

/-- `/seg1/seg2/…/segn/`: the path spelled by a segment list. -/
def joinSegs : List Str → Str
  | [] => ['/']
  | s :: segs => '/' :: (s ++ joinSegs segs)

/-- Number of lines whose trimmed content an exact sub-key accepts. -/
def countMatches (key : Str) (lines : List Str) : Nat :=
  lines.countP (fun l => lineMatches key l)

/-- The feed URL of the end-to-end example. -/
def exampleUrl : Str := str "https://pkgs.dev.azure.com/myorg/_packaging/myfeed/npm/registry/"

/-- The token of the end-to-end example: 52 `A` characters. -/
def exampleToken : Str := str "AAAAAAAAAAAAAAAAAAAAAAAAAAAAAAAAAAAAAAAAAAAAAAAAAAAA"

/-- The key base of the end-to-end example's feed. -/
def exampleKey : Str := str "//pkgs.dev.azure.com/myorg/_packaging/myfeed/npm/registry/"

/-- The two process output channels. -/
inductive OutStream
  | stdout
  | stderr
deriving DecidableEq

/-- An error report: the stream the message goes to and the exit code. -/
structure ErrorExit where
  stream : OutStream
  message : Str
  code : Nat
deriving DecidableEq

/-- The message of `main` line 44 (without the ANSI color wrapping of
`pc.red`). -/
def invalidUrlMessage (value : Str) : Str :=
  '"' :: value ++ str ("\" is not a valid Azure DevOps NPM feed URL. Expected " ++
    "\"https://pkgs.dev.azure.com/:organization(/:project)/_packaging/:feed/npm/registry/\"")

/-- `main` lines 41-47: a `--url` value failing both patterns is
reported — via `console.log`, hence on standard output — and the
process exits with code 1. -/
def validateUrlFlag (value : Str) : Option ErrorExit :=
  if testFeedUrl value then none
  else some ⟨OutStream.stdout, invalidUrlMessage value, 1⟩

/-- `main` lines 60-61: a key of the project `.npmrc` counts as a
registry entry if it is literally `registry` or starts with `@` and
ends with `:registry`. -/
def isRegistryKey (k : Str) : Bool :=
  k = str "registry" || ((str "@").isPrefixOf k && (str ":registry").isSuffixOf k)

/-- `main` lines 59-73: keep the values of registry entries that match
either feed template, in file order. -/
def scanNpmrcEntries (entries : List (Str × Str)) : List Str :=
  (entries.filter (fun kv => isRegistryKey kv.1 && testFeedUrl kv.2)).map (fun kv => kv.2)

/-- The failure modes of URL resolution (`main` lines 41-80). -/
inductive ResolveError
  | invalidUrl (value : Str)
  | npmrcMissing
  | noFeeds
deriving DecidableEq

/-- URL resolution of `main` lines 41-80: validate every `--url` value
(first failure wins, as `forEach` exits the process there); when no
URLs were supplied, the project `.npmrc` must exist and is scanned; a
still-empty list is an error.  The project file is modeled by whether
it exists and the key-value entries its INI parse yields. -/
def resolveUrls (urlFlags : List Str) (npmrcExists : Bool)
    (npmrcEntries : List (Str × Str)) : Except ResolveError (List Str) :=
  match urlFlags.find? (fun u => !testFeedUrl u) with
  | some bad => Except.error (ResolveError.invalidUrl bad)
  | none =>
    if urlFlags.isEmpty then
      if !npmrcExists then Except.error ResolveError.npmrcMissing
      else
        let found := scanNpmrcEntries npmrcEntries
        if found.isEmpty then Except.error ResolveError.noFeeds
        else Except.ok found
    else Except.ok urlFlags

/-! ### Splitting and joining lines -/

theorem splitNl_ne_nil (t : Str) : splitNl t ≠ [] := by
  induction t with
  | nil => simp [splitNl]
  | cons c rest ih =>
    simp only [splitNl]
    split
    · simp
    · cases h : splitNl rest with
      | nil => simp
      | cons r rs => simp

theorem not_nl_mem_splitNl (t : Str) : ∀ l ∈ splitNl t, '\n' ∉ l := by
  induction t with
  | nil =>
    intro l hl
    simp only [splitNl, List.mem_singleton] at hl
    simp [hl]
  | cons c rest ih =>
    intro l hl
    simp only [splitNl] at hl
    by_cases hc : c = '\n'
    · rw [if_pos hc] at hl
      rcases List.mem_cons.mp hl with h | h
      · simp [h]
      · exact ih l h
    · rw [if_neg hc] at hl
      cases hsp : splitNl rest with
      | nil => exact absurd hsp (splitNl_ne_nil rest)
      | cons r rs =>
        rw [hsp] at hl
        rcases List.mem_cons.mp hl with h | h
        · subst h
          intro hmem
          rcases List.mem_cons.mp hmem with h | h
          · exact hc h.symm
          · exact ih r (hsp ▸ List.mem_cons_self r rs) h
        · exact ih l (hsp ▸ List.mem_cons_of_mem r h)

theorem splitNl_of_not_mem {a : Str} (h : '\n' ∉ a) : splitNl a = [a] := by
  induction a with
  | nil => rfl
  | cons c a ih =>
    have hc : ¬ c = '\n' := fun hcc => h (hcc ▸ List.mem_cons_self c a)
    have ha : '\n' ∉ a := fun hmem => h (List.mem_cons_of_mem c hmem)
    simp only [splitNl, if_neg hc, ih ha]

theorem splitNl_append_nl_cons (a rest : Str) (h : '\n' ∉ a) :
    splitNl (a ++ '\n' :: rest) = a :: splitNl rest := by
  induction a with
  | nil => simp [splitNl]
  | cons c a ih =>
    have hc : ¬ c = '\n' := fun hcc => h (hcc ▸ List.mem_cons_self c a)
    have ha : '\n' ∉ a := fun hmem => h (List.mem_cons_of_mem c hmem)
    simp only [List.cons_append, splitNl, if_neg hc, List.append_eq, ih ha]

theorem joinNl_cons_cons (l l2 : Str) (ls : List Str) :
    joinNl (l :: l2 :: ls) = l ++ '\n' :: joinNl (l2 :: ls) := rfl

theorem splitNl_joinNl (ls : List Str) (hne : ls ≠ []) (h : ∀ l ∈ ls, '\n' ∉ l) :
    splitNl (joinNl ls) = ls := by
  induction ls with
  | nil => exact absurd rfl hne
  | cons l ls ih =>
    cases ls with
    | nil => exact splitNl_of_not_mem (h l (List.mem_cons_self l []))
    | cons l2 ls2 =>
      rw [joinNl_cons_cons,
        splitNl_append_nl_cons l _ (h l (List.mem_cons_self l _)),
        ih (by simp) (fun x hx => h x (List.mem_cons_of_mem l hx))]

/-! ### Trimming -/

theorem trimStart_cons_of_neg {c : Char} {s : Str} (h : jsWhitespace c = false) :
    trimStart (c :: s) = c :: s := by
  simp [trimStart, List.dropWhile_cons, h]

theorem trimEnd_prefix_of_self (l : Str) : trimEnd l <+: l := by
  have h1 : l.reverse.dropWhile jsWhitespace <:+ l.reverse := List.dropWhile_suffix _
  have h2 := List.reverse_prefix.mpr h1
  rwa [List.reverse_reverse] at h2

theorem trimEnd_concat_of_neg {X : Str} {c : Char} (h : jsWhitespace c = false) :
    trimEnd (X ++ [c]) = X ++ [c] := by
  simp [trimEnd, List.reverse_append, List.dropWhile_cons, h]

theorem trimEnd_append (X Y : Str) :
    trimEnd (X ++ Y) = if trimEnd Y = [] then trimEnd X else X ++ trimEnd Y := by
  unfold trimEnd
  rw [List.reverse_append, List.dropWhile_append]
  by_cases h : Y.reverse.dropWhile jsWhitespace = []
  · simp [h]
  · simp [h]

/-! ### Sub-key bridges: the source's three concrete keys and entries
are `keyOf`/`entryOf` at the three `SubKey` values -/

theorem usernameKey_eq_keyOf (P : Str) : usernameKey P = keyOf P SubKey.username := rfl

theorem passwordKey_eq_keyOf (P : Str) : passwordKey P = keyOf P SubKey.password := rfl

theorem emailKey_eq_keyOf (P : Str) : emailKey P = keyOf P SubKey.email := rfl

theorem usernameEntry_eq_entryOf (pw P : Str) :
    usernameEntry P = entryOf pw P SubKey.username := by
  simp [usernameEntry, entryOf, keyOf, valOf, usernameKey, subKeyStr, str]

theorem passwordEntry_eq_entryOf (pw P : Str) :
    passwordEntry P pw = entryOf pw P SubKey.password := rfl

theorem emailEntry_eq_entryOf (pw P : Str) :
    emailEntry P = entryOf pw P SubKey.email := by
  simp [emailEntry, entryOf, keyOf, valOf, emailKey, subKeyStr, str]

/-- No sub-key suffix is a prefix of a different sub-key suffix
followed by anything: the three suffixes already disagree at their
second character. -/
theorem subKeyStr_prefix_cases {s s' : SubKey} {r : Str}
    (h : subKeyStr s' <+: subKeyStr s ++ r) : s' = s := by
  cases s <;> cases s' <;> first
    | rfl
    | exact absurd (List.cons_prefix_cons.mp ((List.cons_prefix_cons.mp h).2)).1 (by decide)

/-- A trimmed line accepted by one sub-key check of a feed is rejected
by the other two checks of the same feed. -/
theorem lineMatches_exclusive {P l : Str} {s s' : SubKey} (hss : s' ≠ s)
    (h : lineMatches (keyOf P s) l = true) : lineMatches (keyOf P s') l = false := by
  by_contra hcon
  have h' : lineMatches (keyOf P s') l = true := by
    cases hx : lineMatches (keyOf P s') l
    · exact absurd hx hcon
    · rfl
  have hp : keyOf P s <+: jsTrim l := List.isPrefixOf_iff_prefix.mp h
  have hp' : keyOf P s' <+: jsTrim l := List.isPrefixOf_iff_prefix.mp h'
  rcases List.prefix_or_prefix_of_prefix hp hp' with hc | hc
  · have := (List.prefix_append_right_inj P).mp hc
    have : s = s' := subKeyStr_prefix_cases (r := []) (by simpa using this)
    exact hss this.symm
  · have := (List.prefix_append_right_inj P).mp hc
    exact hss (subKeyStr_prefix_cases (r := []) (by simpa using this))

/-! ### Matching against generated entries -/

theorem jsTrim_eq_trimEnd_of_head {c : Char} {s : Str} (h : jsWhitespace c = false) :
    jsTrim (c :: s) = trimEnd (c :: s) := by
  rw [jsTrim, trimStart_cons_of_neg h]

/-- The key (with its `=` sign) survives trimming of a generated entry:
trimming removes nothing in front (the key starts with `/`) and only
value characters at the back. -/
theorem key_eq_prefix_trimEnd (K v : Str) :
    (K ++ ['=']) <+: trimEnd ((K ++ ['=']) ++ v) := by
  rw [trimEnd_append]
  by_cases h : trimEnd v = []
  · rw [if_pos h, trimEnd_concat_of_neg (by decide)]
  · rw [if_neg h]
    exact ⟨trimEnd v, rfl⟩

/-- The positive direction: a feed's own generated entry passes the
check of the sub-key it was generated for.  Requires only that the key
base starts with `/` (true of every `//host/path` key). -/
theorem lineMatches_entryOf_self {P : Str} (hP : ∃ r, P = '/' :: r) (pw : Str)
    (s : SubKey) : lineMatches (keyOf P s) (entryOf pw P s) = true := by
  rcases hP with ⟨r, rfl⟩
  rw [lineMatches, List.isPrefixOf_iff_prefix]
  have hshape : entryOf pw ('/' :: r) s
      = '/' :: (r ++ (subKeyStr s ++ '=' :: valOf pw s)) := by
    simp [entryOf, keyOf]
  have hshape2 : entryOf pw ('/' :: r) s
      = (keyOf ('/' :: r) s ++ ['=']) ++ valOf pw s := by
    simp [entryOf, keyOf]
  have hhead : jsTrim (entryOf pw ('/' :: r) s) = trimEnd (entryOf pw ('/' :: r) s) := by
    rw [hshape]
    exact jsTrim_eq_trimEnd_of_head (by decide)
  rw [hhead, hshape2]
  exact List.IsPrefix.trans ⟨['='], rfl⟩ (key_eq_prefix_trimEnd _ _)

/-- A generated entry starts with `/`, so trimming it only shortens it
at the back: the trimmed form is a prefix of the line. -/
theorem jsTrim_entryOf_front {P : Str} (hP : ∃ r, P = '/' :: r) (pw : Str) (s : SubKey) :
    jsTrim (entryOf pw P s) <+: entryOf pw P s := by
  rcases hP with ⟨r, rfl⟩
  have hshape : entryOf pw ('/' :: r) s
      = '/' :: (r ++ (subKeyStr s ++ '=' :: valOf pw s)) := by
    simp [entryOf, keyOf]
  rw [hshape, jsTrim_eq_trimEnd_of_head (by decide)]
  exact trimEnd_prefix_of_self _

/-- Matching a generated entry of the same feed: only the sub-key the
entry was generated for passes the check. -/
theorem lineMatches_entryOf_same {P : Str} (hP : ∃ r, P = '/' :: r) (pw : Str)
    {s s' : SubKey} (h : lineMatches (keyOf P s') (entryOf pw P s) = true) : s' = s := by
  have hp : keyOf P s' <+: jsTrim (entryOf pw P s) := List.isPrefixOf_iff_prefix.mp h
  have hp2 : keyOf P s' <+: entryOf pw P s := hp.trans (jsTrim_entryOf_front hP pw s)
  have hsub : subKeyStr s' <+: subKeyStr s ++ '=' :: valOf pw s := by
    have h3 : P ++ subKeyStr s' <+: P ++ (subKeyStr s ++ '=' :: valOf pw s) := by
      have h4 := hp2
      rw [entryOf, keyOf, keyOf, List.append_assoc] at h4
      exact h4
    exact (List.prefix_append_right_inj P).mp h3
  exact subKeyStr_prefix_cases hsub

theorem lineMatches_entryOf_same_false {P : Str} (hP : ∃ r, P = '/' :: r) (pw : Str)
    {s s' : SubKey} (hss : s' ≠ s) : lineMatches (keyOf P s') (entryOf pw P s) = false := by
  cases hx : lineMatches (keyOf P s') (entryOf pw P s)
  · rfl
  · exact absurd (lineMatches_entryOf_same hP pw hx) hss

/-! ### The rewrite loop body -/

theorem rewriteLine_of_never {pw P l : Str} (h : NeverMatches P l) :
    rewriteLine pw P l = l := by
  rw [rewriteLine, usernameKey_eq_keyOf, passwordKey_eq_keyOf, emailKey_eq_keyOf,
    h SubKey.username, h SubKey.password, h SubKey.email]
  simp

theorem rewriteLine_of_matches {pw P l : Str} {s : SubKey}
    (h : lineMatches (keyOf P s) l = true) : rewriteLine pw P l = entryOf pw P s := by
  cases s with
  | username =>
    rw [rewriteLine, usernameKey_eq_keyOf, h]
    simp [usernameEntry_eq_entryOf pw]
  | password =>
    have h1 : lineMatches (keyOf P SubKey.username) l = false :=
      lineMatches_exclusive (by decide) h
    rw [rewriteLine, usernameKey_eq_keyOf, passwordKey_eq_keyOf, h1, h]
    simp [passwordEntry_eq_entryOf]
  | email =>
    have h1 : lineMatches (keyOf P SubKey.username) l = false :=
      lineMatches_exclusive (by decide) h
    have h2 : lineMatches (keyOf P SubKey.password) l = false :=
      lineMatches_exclusive (by decide) h
    rw [rewriteLine, usernameKey_eq_keyOf, passwordKey_eq_keyOf, emailKey_eq_keyOf,
      h1, h2, h]
    simp [emailEntry_eq_entryOf pw]

theorem rewriteLine_cases (pw P l : Str) :
    (∃ s : SubKey, rewriteLine pw P l = entryOf pw P s ∧ lineMatches (keyOf P s) l = true)
    ∨ (rewriteLine pw P l = l ∧ NeverMatches P l) := by
  by_cases h1 : lineMatches (keyOf P SubKey.username) l = true
  · exact Or.inl ⟨SubKey.username, rewriteLine_of_matches h1, h1⟩
  by_cases h2 : lineMatches (keyOf P SubKey.password) l = true
  · exact Or.inl ⟨SubKey.password, rewriteLine_of_matches h2, h2⟩
  by_cases h3 : lineMatches (keyOf P SubKey.email) l = true
  · exact Or.inl ⟨SubKey.email, rewriteLine_of_matches h3, h3⟩
  refine Or.inr ⟨rewriteLine_of_never ?_, ?_⟩ <;>
  · intro s
    cases s
    · simpa using h1
    · simpa using h2
    · simpa using h3

/-! ### Slash-separated segment paths are uniquely parsed -/

theorem joinSegs_head (S : List Str) : ∃ x, joinSegs S = '/' :: x := by
  cases S with
  | nil => exact ⟨[], rfl⟩
  | cons s segs => exact ⟨s ++ joinSegs segs, rfl⟩

theorem seg_append_slash_parse {s t x y : Str} (hs : '/' ∉ s) (ht : '/' ∉ t)
    (h : (s ++ '/' :: x) <+: (t ++ '/' :: y)) : s = t ∧ x <+: y := by
  induction s generalizing t with
  | nil =>
    cases t with
    | nil =>
      refine ⟨rfl, ?_⟩
      have h' : ('/' :: x) <+: ('/' :: y) := by simpa using h
      exact (List.cons_prefix_cons.mp h').2
    | cons d t2 =>
      exfalso
      have h' : ('/' :: x) <+: (d :: (t2 ++ '/' :: y)) := by simpa using h
      have hd := (List.cons_prefix_cons.mp h').1
      exact ht (by rw [← hd]; exact List.mem_cons_self _ _)
  | cons c s2 ih =>
    cases t with
    | nil =>
      exfalso
      have h' : (c :: (s2 ++ '/' :: x)) <+: ('/' :: y) := by simpa using h
      have hc := (List.cons_prefix_cons.mp h').1
      exact hs (by rw [hc]; exact List.mem_cons_self _ _)
    | cons d t2 =>
      have h' : (c :: (s2 ++ '/' :: x)) <+: (d :: (t2 ++ '/' :: y)) := by simpa using h
      obtain ⟨hcd, hrest⟩ := List.cons_prefix_cons.mp h'
      have hs2 : '/' ∉ s2 := fun hm => hs (List.mem_cons_of_mem _ hm)
      have ht2 : '/' ∉ t2 := fun hm => ht (List.mem_cons_of_mem _ hm)
      obtain ⟨hst, hxy⟩ := ih hs2 ht2 hrest
      exact ⟨by rw [hcd, hst], hxy⟩

theorem joinSegs_prefix_segs {S T : List Str} (hS : ∀ s ∈ S, goodSeg s)
    (hT : ∀ t ∈ T, goodSeg t) (h : joinSegs S <+: joinSegs T) : S <+: T := by
  induction S generalizing T with
  | nil => exact List.nil_prefix
  | cons s S2 ih =>
    cases T with
    | nil =>
      exfalso
      rcases h with ⟨r, hr⟩
      simp only [joinSegs, List.cons_append, List.cons.injEq] at hr
      rcases joinSegs_head S2 with ⟨x, hx⟩
      have := hr.2
      rw [List.append_assoc, hx] at this
      exact absurd this (by simp)
    | cons t T2 =>
      have h' : (s ++ joinSegs S2) <+: (t ++ joinSegs T2) :=
        (List.cons_prefix_cons.mp h).2
      rcases joinSegs_head S2 with ⟨x, hx⟩
      rcases joinSegs_head T2 with ⟨y, hy⟩
      rw [hx, hy] at h'
      obtain ⟨hst, hxy⟩ := seg_append_slash_parse
        (hS s (List.mem_cons_self _ _)).2 (hT t (List.mem_cons_self _ _)).2 h'
      have hS2T2 : joinSegs S2 <+: joinSegs T2 := by
        rw [hx, hy]
        exact List.cons_prefix_cons.mpr ⟨rfl, hxy⟩
      have hrec := ih (fun a ha => hS a (List.mem_cons_of_mem _ ha))
        (fun a ha => hT a (List.mem_cons_of_mem _ ha)) hS2T2
      exact List.cons_prefix_cons.mpr ⟨hst, hrec⟩

theorem joinSegs_inj {S T : List Str} (hS : ∀ s ∈ S, goodSeg s)
    (hT : ∀ t ∈ T, goodSeg t) (h : joinSegs S = joinSegs T) : S = T := by
  have h1 : S <+: T := joinSegs_prefix_segs hS hT (by rw [h])
  have h2 : T <+: S := joinSegs_prefix_segs hT hS (by rw [h])
  exact h1.eq_of_length_le h2.length_le

/-! ### The two key templates, decomposed into segment lists -/

theorem orgFeedKey_decomp (o f : Str) :
    orgFeedKey o f = str "//pkgs.dev.azure.com"
      ++ joinSegs [o, str "_packaging", f, str "npm", str "registry"] := by
  have e1 : str "//pkgs.dev.azure.com/" = str "//pkgs.dev.azure.com" ++ ['/'] := rfl
  have e2 : str "/_packaging/" = '/' :: (str "_packaging" ++ ['/']) := rfl
  have e3 : str "/npm/registry/"
      = '/' :: (str "npm" ++ ('/' :: (str "registry" ++ ['/']))) := rfl
  rw [orgFeedKey, e1, e2, e3]
  simp [joinSegs, List.append_assoc]

theorem projFeedKey_decomp (o p f : Str) :
    projFeedKey o p f = str "//pkgs.dev.azure.com"
      ++ joinSegs [o, p, str "_packaging", f, str "npm", str "registry"] := by
  have e1 : str "//pkgs.dev.azure.com/" = str "//pkgs.dev.azure.com" ++ ['/'] := rfl
  have e2 : str "/_packaging/" = '/' :: (str "_packaging" ++ ['/']) := rfl
  have e3 : str "/npm/registry/"
      = '/' :: (str "npm" ++ ('/' :: (str "registry" ++ ['/']))) := rfl
  have e4 : str "/" = ['/'] := rfl
  rw [projFeedKey, e1, e2, e3, e4]
  simp [joinSegs, List.append_assoc]

theorem isSeg_goodSeg {s : Str} (h : isSeg s = true) : goodSeg s := by
  rw [isSeg, Bool.and_eq_true] at h
  refine ⟨?_, ?_⟩
  · intro hnil
    rw [hnil] at h
    simp at h
  · intro hmem
    have := List.all_eq_true.mp h.2 '/' hmem
    exact absurd this (by decide)

theorem validKey_segs {P : Str} (hP : ValidKey P) :
    ∃ S : List Str, P = str "//pkgs.dev.azure.com" ++ joinSegs S
      ∧ (∀ s ∈ S, goodSeg s)
      ∧ ((∃ o f, S = [o, str "_packaging", f, str "npm", str "registry"]) ∨
         (∃ o p f, S = [o, p, str "_packaging", f, str "npm", str "registry"])) := by
  rcases hP with ⟨o, f, ho, hf, rfl⟩ | ⟨o, p, f, ho, hp, hf, rfl⟩
  · refine ⟨[o, str "_packaging", f, str "npm", str "registry"],
      orgFeedKey_decomp o f, ?_, Or.inl ⟨o, f, rfl⟩⟩
    intro s hs
    simp only [List.mem_cons, List.not_mem_nil, or_false] at hs
    rcases hs with rfl | rfl | rfl | rfl | rfl
    · exact isSeg_goodSeg ho
    · exact ⟨by decide, by decide⟩
    · exact isSeg_goodSeg hf
    · exact ⟨by decide, by decide⟩
    · exact ⟨by decide, by decide⟩
  · refine ⟨[o, p, str "_packaging", f, str "npm", str "registry"],
      projFeedKey_decomp o p f, ?_, Or.inr ⟨o, p, f, rfl⟩⟩
    intro s hs
    simp only [List.mem_cons, List.not_mem_nil, or_false] at hs
    rcases hs with rfl | rfl | rfl | rfl | rfl | rfl
    · exact isSeg_goodSeg ho
    · exact isSeg_goodSeg hp
    · exact ⟨by decide, by decide⟩
    · exact isSeg_goodSeg hf
    · exact ⟨by decide, by decide⟩
    · exact ⟨by decide, by decide⟩

theorem template_segs_eq_of_le {S T : List Str}
    (hS : (∃ o f, S = [o, str "_packaging", f, str "npm", str "registry"]) ∨
      (∃ o p f, S = [o, p, str "_packaging", f, str "npm", str "registry"]))
    (hT : (∃ o f, T = [o, str "_packaging", f, str "npm", str "registry"]) ∨
      (∃ o p f, T = [o, p, str "_packaging", f, str "npm", str "registry"]))
    (h : S <+: T) : S = T := by
  rcases hS with ⟨o, f, rfl⟩ | ⟨o, p, f, rfl⟩ <;>
    rcases hT with ⟨o2, f2, rfl⟩ | ⟨o2, p2, f2, rfl⟩
  · exact h.eq_of_length (by simp)
  · exfalso
    have h1 := (List.cons_prefix_cons.mp h).2
    have h2 := (List.cons_prefix_cons.mp h1).2
    have h3 := (List.cons_prefix_cons.mp h2).2
    have h4 := (List.cons_prefix_cons.mp h3).2
    have h5 := (List.cons_prefix_cons.mp h4).1
    exact absurd h5 (by decide)
  · exfalso
    have := h.length_le
    simp at this
  · exact h.eq_of_length (by simp)

theorem validKey_prefix_free {P Q : Str} (hP : ValidKey P) (hQ : ValidKey Q)
    (h : P <+: Q) : P = Q := by
  rcases validKey_segs hP with ⟨S, rfl, hSg, hSt⟩
  rcases validKey_segs hQ with ⟨T, rfl, hTg, hTt⟩
  have h' : joinSegs S <+: joinSegs T := (List.prefix_append_right_inj _).mp h
  rw [template_segs_eq_of_le hSt hTt (joinSegs_prefix_segs hSg hTg h')]

theorem validKey_head {P : Str} (hP : ValidKey P) : ∃ r, P = '/' :: r := by
  rcases hP with ⟨o, f, _, _, rfl⟩ | ⟨o, p, f, _, _, _, rfl⟩ <;> exact ⟨_, rfl⟩

/-- The characterization of the line checks on generated entries: for
feeds with valid keys, the check of feed `Q` for sub-key `s2` accepts
the generated entry of feed `P` for sub-key `s` exactly when it is the
very key the entry was generated for. -/
theorem lineMatches_entryOf_iff {P Q : Str} (hP : ValidKey P) (hQ : ValidKey Q)
    {pw : Str} {s s2 : SubKey} :
    lineMatches (keyOf Q s2) (entryOf pw P s) = true ↔ (Q = P ∧ s2 = s) := by
  constructor
  · intro h
    have hp : keyOf Q s2 <+: jsTrim (entryOf pw P s) := List.isPrefixOf_iff_prefix.mp h
    have hkey : keyOf Q s2 <+: entryOf pw P s :=
      hp.trans (jsTrim_entryOf_front (validKey_head hP) pw s)
    have hQe : Q <+: entryOf pw P s :=
      List.IsPrefix.trans ⟨subKeyStr s2, rfl⟩ hkey
    have hPe : P <+: entryOf pw P s := by
      refine ⟨subKeyStr s ++ '=' :: valOf pw s, ?_⟩
      rw [entryOf, keyOf, List.append_assoc]
    have hQP : Q = P := by
      rcases List.prefix_or_prefix_of_prefix hQe hPe with hc | hc
      · exact validKey_prefix_free hQ hP hc
      · exact (validKey_prefix_free hP hQ hc).symm
    subst hQP
    exact ⟨rfl, lineMatches_entryOf_same (validKey_head hP) pw h⟩
  · rintro ⟨rfl, rfl⟩
    exact lineMatches_entryOf_self (validKey_head hP) pw _

/-- The loop body leaves every generated entry of a valid feed intact
when run for any valid feed (the same password is in play). -/
theorem rewriteLine_entryOf {P Q : Str} (hP : ValidKey P) (hQ : ValidKey Q)
    (pw : Str) (s : SubKey) : rewriteLine pw Q (entryOf pw P s) = entryOf pw P s := by
  by_cases hqp : Q = P
  · subst hqp
    rw [rewriteLine_of_matches (lineMatches_entryOf_self (validKey_head hQ) pw s)]
  · have hn : NeverMatches Q (entryOf pw P s) := by
      intro s2
      cases hx : lineMatches (keyOf Q s2) (entryOf pw P s)
      · rfl
      · exact absurd ((lineMatches_entryOf_iff hP hQ).mp hx).1 hqp
    exact rewriteLine_of_never hn

/-! ### The per-feed pass -/

theorem mem_processFeed {pw P : Str} {lines : List Str} {l : Str}
    (h : l ∈ processFeed pw P lines) :
    (∃ l0 ∈ lines, l = rewriteLine pw P l0) ∨ (∃ s : SubKey, l = entryOf pw P s) := by
  simp only [processFeed, List.mem_append] at h
  rcases h with ((hm | hu) | hp) | he
  · rcases List.mem_map.mp hm with ⟨l0, hl0, hw⟩
    exact Or.inl ⟨l0, hl0, hw.symm⟩
  · refine Or.inr ⟨SubKey.username, ?_⟩
    by_cases hb : lines.any (fun l => lineMatches (usernameKey P) l) = true
    · rw [if_pos hb] at hu
      simp at hu
    · rw [if_neg hb] at hu
      rw [List.mem_singleton.mp hu, usernameEntry_eq_entryOf pw]
  · refine Or.inr ⟨SubKey.password, ?_⟩
    by_cases hb : lines.any (fun l => !lineMatches (usernameKey P) l
        && lineMatches (passwordKey P) l) = true
    · rw [if_pos hb] at hp
      simp at hp
    · rw [if_neg hb] at hp
      rw [List.mem_singleton.mp hp, passwordEntry_eq_entryOf]
  · refine Or.inr ⟨SubKey.email, ?_⟩
    by_cases hb : lines.any (fun l => !lineMatches (usernameKey P) l
        && !lineMatches (passwordKey P) l && lineMatches (emailKey P) l) = true
    · rw [if_pos hb] at he
      simp at he
    · rw [if_neg hb] at he
      rw [List.mem_singleton.mp he, emailEntry_eq_entryOf pw]

theorem processFeed_lineOK {pw : Str} {F : List Str} {Q : Str} {lines : List Str}
    (hF : ∀ R ∈ F, ValidKey R) (hQ : ValidKey Q)
    (h : ∀ l ∈ lines, LineOK pw F l) :
    ∀ l ∈ processFeed pw Q lines, LineOK pw (F ++ [Q]) l := by
  intro l hl
  rcases mem_processFeed hl with ⟨l0, hl0, rfl⟩ | ⟨s, rfl⟩
  · rcases h l0 hl0 with ⟨R, hR, s, rfl⟩ | hnm
    · rw [rewriteLine_entryOf (hF R hR) hQ]
      exact Or.inl ⟨R, List.mem_append_left _ hR, s, rfl⟩
    · rcases rewriteLine_cases pw Q l0 with ⟨s, hs, _⟩ | ⟨heq, hn⟩
      · rw [hs]
        exact Or.inl ⟨Q, List.mem_append_right _ (by simp), s, rfl⟩
      · rw [heq]
        refine Or.inr ?_
        intro R hR
        rcases List.mem_append.mp hR with hR2 | hR2
        · exact hnm R hR2
        · rw [List.mem_singleton.mp hR2]
          exact hn
  · exact Or.inl ⟨Q, List.mem_append_right _ (by simp), s, rfl⟩

theorem rewriteAll_nil (pw : Str) (lines : List Str) : rewriteAll pw [] lines = lines := rfl

theorem rewriteAll_cons (pw Q : Str) (ks : List Str) (lines : List Str) :
    rewriteAll pw (Q :: ks) lines = rewriteAll pw ks (processFeed pw Q lines) := rfl

theorem rewriteAll_lineOK {pw : Str} :
    ∀ (ks F : List Str) (lines : List Str),
      (∀ R ∈ ks, ValidKey R) → (∀ R ∈ F, ValidKey R) →
      (∀ l ∈ lines, LineOK pw F l) →
      ∀ l ∈ rewriteAll pw ks lines, LineOK pw (F ++ ks) l := by
  intro ks
  induction ks with
  | nil =>
    intro F lines _ _ h
    simpa using h
  | cons Q ks2 ih =>
    intro F lines hks hF h l hl
    rw [rewriteAll_cons] at hl
    have step := processFeed_lineOK hF (hks Q (by simp)) h
    have hFQ : ∀ R ∈ F ++ [Q], ValidKey R := by
      intro R hR
      rcases List.mem_append.mp hR with h1 | h1
      · exact hF R h1
      · rw [List.mem_singleton.mp h1]
        exact hks Q (by simp)
    have := ih (F ++ [Q]) (processFeed pw Q lines)
      (fun R hR => hks R (List.mem_cons_of_mem _ hR)) hFQ step l hl
    rwa [List.append_assoc, List.singleton_append] at this

/-- Every line of the final state is a generated entry of one of the
processed feeds, or a line none of their checks accept. -/
theorem rewriteAll_lineOK_total {pw : Str} (ks : List Str) (lines : List Str)
    (hks : ∀ R ∈ ks, ValidKey R) :
    ∀ l ∈ rewriteAll pw ks lines, LineOK pw ks l := by
  have h0 : ∀ l ∈ lines, LineOK pw [] l := by
    intro l _
    exact Or.inr (by intro R hR; simp at hR)
  have := rewriteAll_lineOK ks [] lines hks (by intro R hR; simp at hR) h0
  simpa using this

/-! ### Presence of the generated entries -/

theorem entryOf_mem_processFeed_self {pw Q : Str} (hQ : ∃ r, Q = '/' :: r)
    (lines : List Str) (s : SubKey) : entryOf pw Q s ∈ processFeed pw Q lines := by
  simp only [processFeed, List.mem_append]
  cases s with
  | username =>
    by_cases hb : lines.any (fun l => lineMatches (usernameKey Q) l) = true
    · rcases List.any_eq_true.mp hb with ⟨l0, hl0, hm⟩
      refine Or.inl (Or.inl (Or.inl (List.mem_map.mpr ⟨l0, hl0, ?_⟩)))
      rw [usernameKey_eq_keyOf] at hm
      exact rewriteLine_of_matches hm
    · rw [if_neg hb]
      refine Or.inl (Or.inl (Or.inr ?_))
      rw [List.mem_singleton]
      exact (usernameEntry_eq_entryOf pw Q).symm
  | password =>
    by_cases hb : lines.any (fun l => !lineMatches (usernameKey Q) l
        && lineMatches (passwordKey Q) l) = true
    · rcases List.any_eq_true.mp hb with ⟨l0, hl0, hm⟩
      rw [Bool.and_eq_true] at hm
      refine Or.inl (Or.inl (Or.inl (List.mem_map.mpr ⟨l0, hl0, ?_⟩)))
      have hm2 := hm.2
      rw [passwordKey_eq_keyOf] at hm2
      exact rewriteLine_of_matches hm2
    · rw [if_neg hb]
      refine Or.inl (Or.inr ?_)
      rw [List.mem_singleton]
      exact (passwordEntry_eq_entryOf pw Q).symm
  | email =>
    by_cases hb : lines.any (fun l => !lineMatches (usernameKey Q) l
        && !lineMatches (passwordKey Q) l && lineMatches (emailKey Q) l) = true
    · rcases List.any_eq_true.mp hb with ⟨l0, hl0, hm⟩
      rw [Bool.and_eq_true] at hm
      refine Or.inl (Or.inl (Or.inl (List.mem_map.mpr ⟨l0, hl0, ?_⟩)))
      have hm2 := hm.2
      rw [emailKey_eq_keyOf] at hm2
      exact rewriteLine_of_matches hm2
    · rw [if_neg hb]
      refine Or.inr ?_
      rw [List.mem_singleton]
      exact (emailEntry_eq_entryOf pw Q).symm

theorem entryOf_mem_processFeed_of_mem {pw P Q : Str} (hP : ValidKey P) (hQ : ValidKey Q)
    {lines : List Str} {s : SubKey} (h : entryOf pw P s ∈ lines) :
    entryOf pw P s ∈ processFeed pw Q lines := by
  simp only [processFeed, List.mem_append]
  exact Or.inl (Or.inl (Or.inl (List.mem_map.mpr
    ⟨entryOf pw P s, h, rewriteLine_entryOf hP hQ pw s⟩)))

theorem entryOf_mem_rewriteAll_of_mem {pw : Str} :
    ∀ (ks : List Str), (∀ R ∈ ks, ValidKey R) →
      ∀ {P : Str} {s : SubKey} {lines : List Str}, ValidKey P →
      entryOf pw P s ∈ lines → entryOf pw P s ∈ rewriteAll pw ks lines := by
  intro ks
  induction ks with
  | nil =>
    intro _ P s lines _ h
    exact h
  | cons Q ks2 ih =>
    intro hks P s lines hP h
    rw [rewriteAll_cons]
    exact ih (fun R hR => hks R (List.mem_cons_of_mem _ hR)) hP
      (entryOf_mem_processFeed_of_mem hP (hks Q (by simp)) h)

theorem entryOf_mem_rewriteAll {pw : Str} :
    ∀ (ks : List Str), (∀ R ∈ ks, ValidKey R) → ∀ {P : Str}, P ∈ ks →
      ∀ (s : SubKey) (lines : List Str), entryOf pw P s ∈ rewriteAll pw ks lines := by
  intro ks
  induction ks with
  | nil =>
    intro _ P hP
    simp at hP
  | cons Q ks2 ih =>
    intro hks P hP s lines
    rw [rewriteAll_cons]
    rcases List.mem_cons.mp hP with rfl | hP2
    · exact entryOf_mem_rewriteAll_of_mem ks2
        (fun R hR => hks R (List.mem_cons_of_mem _ hR)) (hks P (by simp))
        (entryOf_mem_processFeed_self (validKey_head (hks P (by simp))) lines s)
    · exact ih (fun R hR => hks R (List.mem_cons_of_mem _ hR)) hP2 s _

/-! ### The fixed point: a second run changes nothing -/

theorem processFeed_fixpoint {pw : Str} {ks : List Str} {Q : Str} {lines : List Str}
    (hks : ∀ R ∈ ks, ValidKey R) (hQ : Q ∈ ks)
    (hOK : ∀ l ∈ lines, LineOK pw ks l)
    (hpres : ∀ s : SubKey, entryOf pw Q s ∈ lines) :
    processFeed pw Q lines = lines := by
  have hQv : ValidKey Q := hks Q hQ
  have hhd := validKey_head hQv
  have hmap : lines.map (rewriteLine pw Q) = lines := by
    have hid : ∀ l ∈ lines, rewriteLine pw Q l = l := by
      intro l hl
      rcases hOK l hl with ⟨R, hR, s, rfl⟩ | hnm
      · exact rewriteLine_entryOf (hks R hR) hQv pw s
      · exact rewriteLine_of_never (hnm Q hQ)
    calc lines.map (rewriteLine pw Q) = lines.map id := List.map_congr_left hid
    _ = lines := List.map_id lines
  have hu : lines.any (fun l => lineMatches (usernameKey Q) l) = true := by
    refine List.any_eq_true.mpr ⟨entryOf pw Q SubKey.username, hpres _, ?_⟩
    simp only [usernameKey_eq_keyOf]
    exact lineMatches_entryOf_self hhd pw _
  have hp : lines.any (fun l => !lineMatches (usernameKey Q) l
      && lineMatches (passwordKey Q) l) = true := by
    refine List.any_eq_true.mpr ⟨entryOf pw Q SubKey.password, hpres _, ?_⟩
    simp only [usernameKey_eq_keyOf, passwordKey_eq_keyOf]
    rw [lineMatches_entryOf_same_false hhd pw (by decide),
      lineMatches_entryOf_self hhd pw _]
    rfl
  have he : lines.any (fun l => !lineMatches (usernameKey Q) l
      && !lineMatches (passwordKey Q) l && lineMatches (emailKey Q) l) = true := by
    refine List.any_eq_true.mpr ⟨entryOf pw Q SubKey.email, hpres _, ?_⟩
    simp only [usernameKey_eq_keyOf, passwordKey_eq_keyOf, emailKey_eq_keyOf]
    rw [lineMatches_entryOf_same_false hhd pw (by decide),
      lineMatches_entryOf_same_false hhd pw (by decide),
      lineMatches_entryOf_self hhd pw _]
    rfl
  simp only [processFeed, hmap, hu, hp, he]
  simp

theorem rewriteAll_fixpoint {pw : Str} {K : List Str} (hK : ∀ R ∈ K, ValidKey R)
    {lines : List Str} (hOK : ∀ l ∈ lines, LineOK pw K l)
    (hpres : ∀ Q ∈ K, ∀ s : SubKey, entryOf pw Q s ∈ lines) :
    ∀ ks, (∀ Q ∈ ks, Q ∈ K) → rewriteAll pw ks lines = lines := by
  intro ks
  induction ks with
  | nil =>
    intro _
    rfl
  | cons Q ks2 ih =>
    intro hsub
    rw [rewriteAll_cons,
      processFeed_fixpoint hK (hsub Q (by simp)) hOK (hpres Q (hsub Q (by simp)))]
    exact ih (fun R hR => hsub R (List.mem_cons_of_mem _ hR))

/-! ### No line of the final state contains a newline -/

theorem isSeg_not_nl {s : Str} (h : isSeg s = true) : '\n' ∉ s := by
  intro hm
  rw [isSeg, Bool.and_eq_true] at h
  have := List.all_eq_true.mp h.2 _ hm
  exact absurd this (by decide)

theorem validKey_not_nl {P : Str} (hP : ValidKey P) : '\n' ∉ P := by
  rcases hP with ⟨o, f, ho, hf, rfl⟩ | ⟨o, p, f, ho, hp, hf, rfl⟩
  · intro hmem
    rw [orgFeedKey] at hmem
    simp only [List.mem_append] at hmem
    rcases hmem with (((h | h) | h) | h) | h
    · exact absurd h (by decide)
    · exact isSeg_not_nl ho h
    · exact absurd h (by decide)
    · exact isSeg_not_nl hf h
    · exact absurd h (by decide)
  · intro hmem
    rw [projFeedKey] at hmem
    simp only [List.mem_append] at hmem
    rcases hmem with (((((h | h) | h) | h) | h) | h) | h
    · exact absurd h (by decide)
    · exact isSeg_not_nl ho h
    · exact absurd h (by decide)
    · exact isSeg_not_nl hp h
    · exact absurd h (by decide)
    · exact isSeg_not_nl hf h
    · exact absurd h (by decide)

theorem entryOf_not_nl {pw P : Str} (hP : ValidKey P) (hpw : '\n' ∉ pw) (s : SubKey) :
    '\n' ∉ entryOf pw P s := by
  intro hm
  rw [entryOf, keyOf] at hm
  simp only [List.mem_append, List.mem_cons] at hm
  rcases hm with (h | h) | h | h
  · exact validKey_not_nl hP h
  · cases s <;> exact absurd h (by decide)
  · exact absurd h (by decide)
  · cases s with
    | username =>
      simp only [valOf] at h
      exact absurd h (by decide)
    | password => exact hpw h
    | email =>
      simp only [valOf] at h
      exact absurd h (by decide)

theorem processFeed_not_nl {pw Q : Str} {lines : List Str} (hQ : ValidKey Q)
    (hpw : '\n' ∉ pw) (h : ∀ l ∈ lines, '\n' ∉ l) :
    ∀ l ∈ processFeed pw Q lines, '\n' ∉ l := by
  intro l hl
  rcases mem_processFeed hl with ⟨l0, hl0, rfl⟩ | ⟨s, rfl⟩
  · rcases rewriteLine_cases pw Q l0 with ⟨s, hs, _⟩ | ⟨heq, _⟩
    · rw [hs]
      exact entryOf_not_nl hQ hpw s
    · rw [heq]
      exact h l0 hl0
  · exact entryOf_not_nl hQ hpw s

theorem rewriteAll_not_nl {pw : Str} (hpw : '\n' ∉ pw) :
    ∀ (ks : List Str), (∀ R ∈ ks, ValidKey R) →
      ∀ {lines : List Str}, (∀ l ∈ lines, '\n' ∉ l) →
      ∀ l ∈ rewriteAll pw ks lines, '\n' ∉ l := by
  intro ks
  induction ks with
  | nil =>
    intro _ lines h
    exact h
  | cons Q ks2 ih =>
    intro hks lines h
    rw [rewriteAll_cons]
    exact ih (fun R hR => hks R (List.mem_cons_of_mem _ hR))
      (processFeed_not_nl (hks Q (by simp)) hpw h)

/-! ### Nonemptiness of the line list -/

theorem processFeed_ne_nil (pw Q : Str) (lines : List Str) :
    processFeed pw Q lines ≠ [] := by
  cases lines with
  | nil => simp [processFeed]
  | cons l ls =>
    simp only [processFeed]
    apply List.append_ne_nil_of_left_ne_nil
    apply List.append_ne_nil_of_left_ne_nil
    apply List.append_ne_nil_of_left_ne_nil
    simp

theorem rewriteAll_ne_nil (pw : Str) :
    ∀ (ks : List Str) (lines : List Str), lines ≠ [] → rewriteAll pw ks lines ≠ [] := by
  intro ks
  induction ks with
  | nil =>
    intro lines h
    exact h
  | cons Q ks2 ih =>
    intro lines _
    rw [rewriteAll_cons]
    exact ih _ (processFeed_ne_nil pw Q lines)

/-! ### The base64 encoder's output alphabet -/

theorem b64digit_mem (n : Nat) : b64digit n ∈ base64Alphabet := by
  rw [b64digit, List.getD_eq_getElem?_getD]
  cases hx : base64Alphabet[n]? with
  | none =>
    simp only [Option.getD_none]
    decide
  | some c =>
    simp only [Option.getD_some]
    exact List.getElem?_mem hx

theorem mem_btoaBytes : ∀ (bs : List Nat) (c : Char), c ∈ btoaBytes bs →
    c ∈ base64Alphabet ∨ c = '='
  | [], c => by
    intro hc
    simp [btoaBytes] at hc
  | [b1], c => by
    intro hc
    simp only [btoaBytes, List.mem_cons, List.not_mem_nil, or_false] at hc
    rcases hc with rfl | rfl | rfl | rfl
    · exact Or.inl (b64digit_mem _)
    · exact Or.inl (b64digit_mem _)
    · exact Or.inr rfl
    · exact Or.inr rfl
  | [b1, b2], c => by
    intro hc
    simp only [btoaBytes, List.mem_cons, List.not_mem_nil, or_false] at hc
    rcases hc with rfl | rfl | rfl | rfl
    · exact Or.inl (b64digit_mem _)
    · exact Or.inl (b64digit_mem _)
    · exact Or.inl (b64digit_mem _)
    · exact Or.inr rfl
  | b1 :: b2 :: b3 :: rest, c => by
    intro hc
    simp only [btoaBytes, List.mem_cons] at hc
    rcases hc with rfl | rfl | rfl | rfl | hc
    · exact Or.inl (b64digit_mem _)
    · exact Or.inl (b64digit_mem _)
    · exact Or.inl (b64digit_mem _)
    · exact Or.inl (b64digit_mem _)
    · exact mem_btoaBytes rest c hc

theorem btoa_not_nl (t : Str) : '\n' ∉ btoa t := by
  intro hm
  rcases mem_btoaBytes _ _ hm with h | h
  · exact absurd h (by decide)
  · exact absurd h (by decide)

/-! ### Characterizing the URL matcher -/

theorem dropLit_eq_some {lit s r : Str} : dropLit lit s = some r ↔ s = lit ++ r := by
  rw [dropLit]
  by_cases h : lit.isPrefixOf s
  · rw [if_pos h]
    simp only [Option.some.injEq]
    constructor
    · rintro rfl
      rcases List.isPrefixOf_iff_prefix.mp h with ⟨t, rfl⟩
      rw [List.drop_left]
    · rintro rfl
      rw [List.drop_left]
  · rw [if_neg h]
    constructor
    · intro hx
      simp at hx
    · rintro rfl
      exact absurd (List.isPrefixOf_iff_prefix.mpr ⟨r, rfl⟩) h

theorem execOrgFeed_some_shape {s o f : Str} (h : execOrgFeed s = some (o, f)) :
    isSeg o = true ∧ isSeg f = true ∧ s = orgFeedUrl o f := by
  rw [execOrgFeed] at h
  split at h
  · simp at h
  · rename_i s1 h1
    simp only at h
    split at h
    · simp at h
    · rename_i hne1
      split at h
      · simp at h
      · rename_i s3 h3
        split at h
        · simp at h
        · rename_i hne2
          split at h
          · rename_i hend
            rw [Option.some.injEq, Prod.mk.injEq] at h
            obtain ⟨ho, hf⟩ := h
            have hs : s = str "https://pkgs.dev.azure.com/" ++ s1 := dropLit_eq_some.mp h1
            have hs1 : s1 = o ++ List.dropWhile segChar s1 := by
              rw [← ho]
              exact (List.takeWhile_append_dropWhile segChar s1).symm
            have hs2 : List.dropWhile segChar s1 = str "/_packaging/" ++ s3 :=
              dropLit_eq_some.mp h3
            have hs3 : s3 = f ++ str "/npm/registry/" := by
              rw [← hf, ← hend]
              exact (List.takeWhile_append_dropWhile segChar s3).symm
            refine ⟨?_, ?_, ?_⟩
            · rw [← ho, isSeg, Bool.and_eq_true]
              exact ⟨by simpa using hne1, List.all_takeWhile⟩
            · rw [← hf, isSeg, Bool.and_eq_true]
              exact ⟨by simpa using hne2, List.all_takeWhile⟩
            · rw [hs, hs1, hs2, hs3, orgFeedUrl]
              simp [List.append_assoc]
          · simp at h

theorem execProjFeed_some_shape {s o p f : Str} (h : execProjFeed s = some (o, p, f)) :
    isSeg o = true ∧ isSeg p = true ∧ isSeg f = true ∧ s = projFeedUrl o p f := by
  rw [execProjFeed] at h
  split at h
  · simp at h
  · rename_i s1 h1
    simp only at h
    split at h
    · simp at h
    · rename_i hne1
      split at h
      · simp at h
      · rename_i s2a h2
        split at h
        · simp at h
        · rename_i hne2
          split at h
          · simp at h
          · rename_i s4 h3
            split at h
            · simp at h
            · rename_i hne3
              split at h
              · rename_i hend
                rw [Option.some.injEq, Prod.mk.injEq, Prod.mk.injEq] at h
                obtain ⟨ho, hp, hf⟩ := h
                have hs : s = str "https://pkgs.dev.azure.com/" ++ s1 := dropLit_eq_some.mp h1
                have hs1 : s1 = o ++ List.dropWhile segChar s1 := by
                  rw [← ho]
                  exact (List.takeWhile_append_dropWhile segChar s1).symm
                have hs2 : List.dropWhile segChar s1 = str "/" ++ s2a :=
                  dropLit_eq_some.mp h2
                have hs2a : s2a = p ++ List.dropWhile segChar s2a := by
                  rw [← hp]
                  exact (List.takeWhile_append_dropWhile segChar s2a).symm
                have hs3 : List.dropWhile segChar s2a = str "/_packaging/" ++ s4 :=
                  dropLit_eq_some.mp h3
                have hs4 : s4 = f ++ str "/npm/registry/" := by
                  rw [← hf, ← hend]
                  exact (List.takeWhile_append_dropWhile segChar s4).symm
                refine ⟨?_, ?_, ?_, ?_⟩
                · rw [← ho, isSeg, Bool.and_eq_true]
                  exact ⟨by simpa using hne1, List.all_takeWhile⟩
                · rw [← hp, isSeg, Bool.and_eq_true]
                  exact ⟨by simpa using hne2, List.all_takeWhile⟩
                · rw [← hf, isSeg, Bool.and_eq_true]
                  exact ⟨by simpa using hne3, List.all_takeWhile⟩
                · rw [hs, hs1, hs2, hs2a, hs3, hs4, projFeedUrl]
                  simp [List.append_assoc]
              · simp at h

theorem takeWhile_seg_append {o : Str} (rest : Str) (ho : ∀ c ∈ o, segChar c = true) :
    (o ++ '/' :: rest).takeWhile segChar = o := by
  rw [List.takeWhile_append_of_pos ho]
  have h : segChar '/' = false := by decide
  simp [List.takeWhile_cons, h]

theorem dropWhile_seg_append {o : Str} (rest : Str) (ho : ∀ c ∈ o, segChar c = true) :
    (o ++ '/' :: rest).dropWhile segChar = '/' :: rest := by
  rw [List.dropWhile_append_of_pos ho]
  have h : segChar '/' = false := by decide
  simp [List.dropWhile_cons, h]

theorem execOrgFeed_templ {o f : Str} (ho : isSeg o = true) (hf : isSeg f = true) :
    execOrgFeed (orgFeedUrl o f) = some (o, f) := by
  rw [isSeg, Bool.and_eq_true] at ho hf
  have hoc : ∀ c ∈ o, segChar c = true := List.all_eq_true.mp ho.2
  have hfc : ∀ c ∈ f, segChar c = true := List.all_eq_true.mp hf.2
  have hoe : o.isEmpty = false := by
    cases hh : o.isEmpty
    · rfl
    · rw [hh] at ho
      exact absurd ho.1 (by simp)
  have hfe : f.isEmpty = false := by
    cases hh : f.isEmpty
    · rfl
    · rw [hh] at hf
      exact absurd hf.1 (by simp)
  have h1 : dropLit (str "https://pkgs.dev.azure.com/") (orgFeedUrl o f)
      = some (o ++ '/' :: (str "_packaging/" ++ (f ++ '/' :: str "npm/registry/"))) := by
    rw [dropLit_eq_some, orgFeedUrl]
    have e2 : str "/_packaging/" = '/' :: str "_packaging/" := rfl
    have e3 : str "/npm/registry/" = '/' :: str "npm/registry/" := rfl
    rw [e2, e3]
    simp [List.append_assoc]
  have h2 : dropLit (str "/_packaging/")
        ('/' :: (str "_packaging/" ++ (f ++ '/' :: str "npm/registry/")))
      = some (f ++ '/' :: str "npm/registry/") := by
    rw [dropLit_eq_some]
    rfl
  rw [execOrgFeed, h1]
  simp only [takeWhile_seg_append _ hoc, dropWhile_seg_append _ hoc, hoe, h2,
    takeWhile_seg_append _ hfc, dropWhile_seg_append _ hfc, hfe]
  simp
  rfl

theorem execProjFeed_templ {o p f : Str} (ho : isSeg o = true) (hp : isSeg p = true)
    (hf : isSeg f = true) : execProjFeed (projFeedUrl o p f) = some (o, p, f) := by
  rw [isSeg, Bool.and_eq_true] at ho hp hf
  have hoc : ∀ c ∈ o, segChar c = true := List.all_eq_true.mp ho.2
  have hpc : ∀ c ∈ p, segChar c = true := List.all_eq_true.mp hp.2
  have hfc : ∀ c ∈ f, segChar c = true := List.all_eq_true.mp hf.2
  have hoe : o.isEmpty = false := by
    cases hh : o.isEmpty
    · rfl
    · rw [hh] at ho
      exact absurd ho.1 (by simp)
  have hpe : p.isEmpty = false := by
    cases hh : p.isEmpty
    · rfl
    · rw [hh] at hp
      exact absurd hp.1 (by simp)
  have hfe : f.isEmpty = false := by
    cases hh : f.isEmpty
    · rfl
    · rw [hh] at hf
      exact absurd hf.1 (by simp)
  have h1 : dropLit (str "https://pkgs.dev.azure.com/") (projFeedUrl o p f)
      = some (o ++ '/' :: (p ++ '/' ::
          (str "_packaging/" ++ (f ++ '/' :: str "npm/registry/")))) := by
    rw [dropLit_eq_some, projFeedUrl]
    have e2 : str "/_packaging/" = '/' :: str "_packaging/" := rfl
    have e3 : str "/npm/registry/" = '/' :: str "npm/registry/" := rfl
    have e4 : str "/" = ['/'] := rfl
    rw [e2, e3, e4]
    simp [List.append_assoc]
  have h2 : dropLit (str "/")
        ('/' :: (p ++ '/' :: (str "_packaging/" ++ (f ++ '/' :: str "npm/registry/"))))
      = some (p ++ '/' :: (str "_packaging/" ++ (f ++ '/' :: str "npm/registry/"))) := by
    rw [dropLit_eq_some]
    rfl
  have h3 : dropLit (str "/_packaging/")
        ('/' :: (str "_packaging/" ++ (f ++ '/' :: str "npm/registry/")))
      = some (f ++ '/' :: str "npm/registry/") := by
    rw [dropLit_eq_some]
    rfl
  rw [execProjFeed, h1]
  simp only [takeWhile_seg_append _ hoc, dropWhile_seg_append _ hoc, hoe, h2,
    takeWhile_seg_append _ hpc, dropWhile_seg_append _ hpc, hpe, h3,
    takeWhile_seg_append _ hfc, dropWhile_seg_append _ hfc, hfe]
  simp
  rfl

theorem orgFeedUrl_decomp (o f : Str) :
    orgFeedUrl o f = str "https://pkgs.dev.azure.com"
      ++ joinSegs [o, str "_packaging", f, str "npm", str "registry"] := by
  have e1 : str "https://pkgs.dev.azure.com/"
      = str "https://pkgs.dev.azure.com" ++ ['/'] := rfl
  have e2 : str "/_packaging/" = '/' :: (str "_packaging" ++ ['/']) := rfl
  have e3 : str "/npm/registry/"
      = '/' :: (str "npm" ++ ('/' :: (str "registry" ++ ['/']))) := rfl
  rw [orgFeedUrl, e1, e2, e3]
  simp [joinSegs, List.append_assoc]

theorem projFeedUrl_decomp (o p f : Str) :
    projFeedUrl o p f = str "https://pkgs.dev.azure.com"
      ++ joinSegs [o, p, str "_packaging", f, str "npm", str "registry"] := by
  have e1 : str "https://pkgs.dev.azure.com/"
      = str "https://pkgs.dev.azure.com" ++ ['/'] := rfl
  have e2 : str "/_packaging/" = '/' :: (str "_packaging" ++ ['/']) := rfl
  have e3 : str "/npm/registry/"
      = '/' :: (str "npm" ++ ('/' :: (str "registry" ++ ['/']))) := rfl
  have e4 : str "/" = ['/'] := rfl
  rw [projFeedUrl, e1, e2, e3, e4]
  simp [joinSegs, List.append_assoc]

/-- The two URL templates are disjoint: an organization-scoped URL is
never equal to a project-scoped one (the paths have five and six
segments respectively, and slash-free segments parse uniquely). -/
theorem orgFeedUrl_ne_projFeedUrl {o f o2 p2 f2 : Str}
    (ho : isSeg o = true) (hf : isSeg f = true) (ho2 : isSeg o2 = true)
    (hp2 : isSeg p2 = true) (hf2 : isSeg f2 = true) :
    orgFeedUrl o f ≠ projFeedUrl o2 p2 f2 := by
  intro h
  rw [orgFeedUrl_decomp, projFeedUrl_decomp] at h
  have h2 := List.append_cancel_left h
  have hSg : ∀ s ∈ [o, str "_packaging", f, str "npm", str "registry"], goodSeg s := by
    intro s hs
    simp only [List.mem_cons, List.not_mem_nil, or_false] at hs
    rcases hs with rfl | rfl | rfl | rfl | rfl
    · exact isSeg_goodSeg ho
    · exact ⟨by decide, by decide⟩
    · exact isSeg_goodSeg hf
    · exact ⟨by decide, by decide⟩
    · exact ⟨by decide, by decide⟩
  have hTg : ∀ s ∈ [o2, p2, str "_packaging", f2, str "npm", str "registry"], goodSeg s := by
    intro s hs
    simp only [List.mem_cons, List.not_mem_nil, or_false] at hs
    rcases hs with rfl | rfl | rfl | rfl | rfl | rfl
    · exact isSeg_goodSeg ho2
    · exact isSeg_goodSeg hp2
    · exact ⟨by decide, by decide⟩
    · exact isSeg_goodSeg hf2
    · exact ⟨by decide, by decide⟩
    · exact ⟨by decide, by decide⟩
  have := joinSegs_inj hSg hTg h2
  have hlen := congrArg List.length this
  simp at hlen

theorem execOrgFeed_projFeedUrl {o p f : Str} (ho : isSeg o = true)
    (hp : isSeg p = true) (hf : isSeg f = true) :
    execOrgFeed (projFeedUrl o p f) = none := by
  cases hx : execOrgFeed (projFeedUrl o p f) with
  | none => rfl
  | some v =>
    obtain ⟨o2, f2⟩ := v
    obtain ⟨ho2, hf2, heq⟩ := execOrgFeed_some_shape hx
    exact absurd heq.symm (orgFeedUrl_ne_projFeedUrl ho2 hf2 ho hp hf)

/-- Every key the program computes from a URL accepted by either
pattern is a valid key. -/
theorem feedKey_valid {u P : Str} (h : feedKey u = some P) : ValidKey P := by
  rw [feedKey] at h
  cases hx : execOrgFeed u with
  | some v =>
    obtain ⟨o, f⟩ := v
    rw [hx] at h
    obtain ⟨ho, hf, _⟩ := execOrgFeed_some_shape hx
    rw [Option.some.injEq] at h
    exact Or.inl ⟨o, f, ho, hf, h.symm⟩
  | none =>
    rw [hx] at h
    cases hy : execProjFeed u with
    | some v =>
      obtain ⟨o, p, f⟩ := v
      rw [hy] at h
      obtain ⟨ho, hp, hf, _⟩ := execProjFeed_some_shape hy
      rw [Option.some.injEq] at h
      exact Or.inr ⟨o, p, f, ho, hp, hf, h.symm⟩
    | none =>
      rw [hy] at h
      simp at h

/-- A URL accepted by either pattern yields a key. -/
theorem feedKey_isSome_of_test {u : Str} (h : testFeedUrl u = true) :
    ∃ P, feedKey u = some P := by
  rw [testFeedUrl, Bool.or_eq_true] at h
  rw [feedKey]
  cases hx : execOrgFeed u with
  | some v => exact ⟨orgFeedKey v.1 v.2, rfl⟩
  | none =>
    cases hy : execProjFeed u with
    | some v => exact ⟨projFeedKey v.1 v.2.1 v.2.2, rfl⟩
    | none =>
      exfalso
      rw [hx, hy] at h
      simp at h

/-! ## The claims -/

/-- C5: token validation accepts a string exactly when it has length at
least 52 and every character is an ASCII letter or digit
(case-insensitive); shorter strings and strings with a non-alphanumeric
character are rejected. -/
theorem c5_isPat_characterization (input : Str) :
    isPat input = true ↔
      52 ≤ input.length ∧ ∀ c ∈ input,
        (('a' ≤ c ∧ c ≤ 'z') ∨ ('A' ≤ c ∧ c ≤ 'Z') ∨ ('0' ≤ c ∧ c ≤ '9')) := by
  simp [isPat, patChar, List.all_eq_true, or_assoc]

set_option maxRecDepth 16384 in
/-- C8 (code bug evidence): a `--url` value matching neither template is
reported with exit code 1 and a message naming the offending string and
the expected template — but the report goes to standard output
(`console.log` in `main` line 44), not the error stream the
specification prescribes. -/
theorem c8_invalid_url_reported_on_stdout :
    validateUrlFlag (str "not-a-feed")
      = some ⟨OutStream.stdout, invalidUrlMessage (str "not-a-feed"), 1⟩
    ∧ (str "not-a-feed") <:+: invalidUrlMessage (str "not-a-feed")
    ∧ (str "https://pkgs.dev.azure.com/:organization(/:project)/_packaging/:feed/npm/registry/")
        <:+: invalidUrlMessage (str "not-a-feed")
    ∧ OutStream.stdout ≠ OutStream.stderr := by
  refine ⟨by decide, by decide, by decide, by decide⟩

/-- C10: when the `--url` flag supplies a non-empty list of valid feed
URLs, URL resolution succeeds with exactly those URLs no matter whether
the project `.npmrc` exists or what it contains — the file is never
consulted. -/
theorem c10_npmrc_not_read (urlFlags : List Str) (npmrcExists : Bool)
    (npmrcEntries : List (Str × Str)) (hne : urlFlags ≠ [])
    (hval : ∀ u ∈ urlFlags, testFeedUrl u = true) :
    resolveUrls urlFlags npmrcExists npmrcEntries = Except.ok urlFlags := by
  rw [resolveUrls]
  have hfind : urlFlags.find? (fun u => !testFeedUrl u) = none := by
    rw [List.find?_eq_none]
    intro u hu
    rw [hval u hu]
    simp
  rw [hfind]
  have hemp : urlFlags.isEmpty = false := by
    cases urlFlags with
    | nil => exact absurd rfl hne
    | cons a l => rfl
  simp [hemp]

theorem c10_npmrc_not_read_witness :
    (([exampleUrl] : List Str) ≠ [] ∧ ∀ u ∈ [exampleUrl], testFeedUrl u = true)
    ∧ resolveUrls [exampleUrl] false [] = Except.ok [exampleUrl]
    ∧ resolveUrls [exampleUrl] true [(str "registry", str "https://registry.npmjs.org/")]
        = Except.ok [exampleUrl] := by
  refine ⟨⟨by decide, by decide⟩, ?_, ?_⟩
  · exact c10_npmrc_not_read [exampleUrl] false [] (by decide) (by decide)
  · exact c10_npmrc_not_read [exampleUrl] true _ (by decide) (by decide)

/-- C9: the rewrite loop matches by string prefix on the trimmed line,
not by exact key: any line whose trimmed content begins with a sub-key
prefix — even when more key characters follow, as in
`…:emailaddress=x` — is overwritten wholesale with that sub-key's
generated `key=value` entry. -/
theorem c9_match_is_by_leading_string (pw P line : Str) (s : SubKey)
    (h : lineMatches (keyOf P s) line = true) :
    rewriteLine pw P line = entryOf pw P s :=
  rewriteLine_of_matches h

theorem c9_match_is_by_leading_string_witness :
    lineMatches (keyOf exampleKey SubKey.email)
      (exampleKey ++ str ":emailaddress=x") = true
    ∧ rewriteLine (str "cHc=") exampleKey (exampleKey ++ str ":emailaddress=x")
        = entryOf (str "cHc=") exampleKey SubKey.email
    ∧ rewriteLine (str "cHc=") exampleKey (exampleKey ++ str ":emailaddress=x")
        ≠ exampleKey ++ str ":emailaddress=x" := by
  refine ⟨by decide, ?_, by decide⟩
  exact c9_match_is_by_leading_string (str "cHc=") exampleKey _ SubKey.email (by decide)

set_option maxRecDepth 16384 in
/-- C1 (counterexample): on the end-to-end example — the organization
feed URL, the 52-`A` token, the empty target file — the Config
Rewriter's output is not the three credential lines alone: it has four
lines, because splitting the empty target text yields one empty line
that is preserved and joined in front of the three appended entries. -/
theorem c1_end_to_end_counterexample :
    updateNpmrcForUrls exampleToken [exampleUrl] (str "")
      ≠ joinNl
        [str "//pkgs.dev.azure.com/myorg/_packaging/myfeed/npm/registry/:username=VssSessionToken",
         str "//pkgs.dev.azure.com/myorg/_packaging/myfeed/npm/registry/:_password=QUFBQUFBQUFBQUFBQUFBQUFBQUFBQUFBQUFBQUFBQUFBQUFBQUFBQUFBQUFBQUFBQUFBQQ==",
         str "//pkgs.dev.azure.com/myorg/_packaging/myfeed/npm/registry/:email=not-used@example.com"]
    ∧ (splitNl (updateNpmrcForUrls exampleToken [exampleUrl] (str ""))).length = 4 := by
  refine ⟨by decide, by decide⟩

set_option maxRecDepth 16384 in
/-- C1 (amended): on the end-to-end example the output consists of an
empty first line followed by exactly the three credential lines — the
username line, the `_password` line carrying the base64 of the 52 `A`
characters, and the email line. -/
theorem c1_end_to_end_amended :
    updateNpmrcForUrls exampleToken [exampleUrl] (str "")
      = joinNl
        [str "",
         str "//pkgs.dev.azure.com/myorg/_packaging/myfeed/npm/registry/:username=VssSessionToken",
         str "//pkgs.dev.azure.com/myorg/_packaging/myfeed/npm/registry/:_password=QUFBQUFBQUFBQUFBQUFBQUFBQUFBQUFBQUFBQUFBQUFBQUFBQUFBQUFBQUFBQUFBQUFBQQ==",
         str "//pkgs.dev.azure.com/myorg/_packaging/myfeed/npm/registry/:email=not-used@example.com"] := by
  decide

/-- C3: when a target file already holds, for a feed's key, a line
whose trimmed content starts with each of the three sub-keys, the
feed's pass replaces those lines in place and the line count is
unchanged; when no line's trimmed content starts with any of the three
sub-keys, the pass appends exactly the three new entries at the end. -/
theorem c3_replace_or_append (pw P : Str) (lines1 lines2 : List Str) :
    ((∃ l ∈ lines1, lineMatches (usernameKey P) l = true) →
     (∃ l ∈ lines1, lineMatches (passwordKey P) l = true) →
     (∃ l ∈ lines1, lineMatches (emailKey P) l = true) →
     (processFeed pw P lines1).length = lines1.length) ∧
    ((∀ l ∈ lines2, lineMatches (usernameKey P) l = false ∧
        lineMatches (passwordKey P) l = false ∧ lineMatches (emailKey P) l = false) →
     processFeed pw P lines2 = lines2 ++ [usernameEntry P, passwordEntry P pw, emailEntry P]) := by
  constructor
  · rintro ⟨lu, hlu, hmu⟩ ⟨lp, hlp, hmp⟩ ⟨le, hle, hme⟩
    have hu : lines1.any (fun l => lineMatches (usernameKey P) l) = true :=
      List.any_eq_true.mpr ⟨lu, hlu, hmu⟩
    have hp : lines1.any (fun l => !lineMatches (usernameKey P) l
        && lineMatches (passwordKey P) l) = true := by
      refine List.any_eq_true.mpr ⟨lp, hlp, ?_⟩
      have hx : lineMatches (usernameKey P) lp = false := by
        rw [usernameKey_eq_keyOf]
        rw [passwordKey_eq_keyOf] at hmp
        exact lineMatches_exclusive (by decide) hmp
      rw [hx, hmp]
      rfl
    have he : lines1.any (fun l => !lineMatches (usernameKey P) l
        && !lineMatches (passwordKey P) l && lineMatches (emailKey P) l) = true := by
      refine List.any_eq_true.mpr ⟨le, hle, ?_⟩
      have h1 : lineMatches (usernameKey P) le = false := by
        rw [usernameKey_eq_keyOf]
        rw [emailKey_eq_keyOf] at hme
        exact lineMatches_exclusive (by decide) hme
      have h2 : lineMatches (passwordKey P) le = false := by
        rw [passwordKey_eq_keyOf]
        rw [emailKey_eq_keyOf] at hme
        exact lineMatches_exclusive (by decide) hme
      rw [h1, h2, hme]
      rfl
    simp only [processFeed, hu, hp, he]
    simp
  · intro h
    have hu : lines2.any (fun l => lineMatches (usernameKey P) l) = false := by
      rw [List.any_eq_false]
      intro l hl
      rw [(h l hl).1]
      simp
    have hp : lines2.any (fun l => !lineMatches (usernameKey P) l
        && lineMatches (passwordKey P) l) = false := by
      rw [List.any_eq_false]
      intro l hl
      rw [(h l hl).2.1]
      simp
    have he : lines2.any (fun l => !lineMatches (usernameKey P) l
        && !lineMatches (passwordKey P) l && lineMatches (emailKey P) l) = false := by
      rw [List.any_eq_false]
      intro l hl
      rw [(h l hl).2.2]
      simp
    have hmap : lines2.map (rewriteLine pw P) = lines2 := by
      have hid : ∀ l ∈ lines2, rewriteLine pw P l = l := by
        intro l hl
        apply rewriteLine_of_never
        intro s
        cases s with
        | username =>
          rw [← usernameKey_eq_keyOf]
          exact (h l hl).1
        | password =>
          rw [← passwordKey_eq_keyOf]
          exact (h l hl).2.1
        | email =>
          rw [← emailKey_eq_keyOf]
          exact (h l hl).2.2
      calc lines2.map (rewriteLine pw P) = lines2.map id := List.map_congr_left hid
      _ = lines2 := List.map_id lines2
    simp only [processFeed, hu, hp, he, hmap]
    simp

theorem c3_replace_or_append_witness :
    ((∃ l ∈ [exampleKey ++ str ":username=old", exampleKey ++ str ":_password=old",
        exampleKey ++ str ":email=old"], lineMatches (usernameKey exampleKey) l = true)
     ∧ (∃ l ∈ [exampleKey ++ str ":username=old", exampleKey ++ str ":_password=old",
        exampleKey ++ str ":email=old"], lineMatches (passwordKey exampleKey) l = true)
     ∧ (∃ l ∈ [exampleKey ++ str ":username=old", exampleKey ++ str ":_password=old",
        exampleKey ++ str ":email=old"], lineMatches (emailKey exampleKey) l = true)
     ∧ (processFeed (str "cHc=") exampleKey
          [exampleKey ++ str ":username=old", exampleKey ++ str ":_password=old",
           exampleKey ++ str ":email=old"]).length = 3)
    ∧ ((∀ l ∈ [str "# comment", str ""], lineMatches (usernameKey exampleKey) l = false ∧
          lineMatches (passwordKey exampleKey) l = false ∧
          lineMatches (emailKey exampleKey) l = false)
       ∧ processFeed (str "cHc=") exampleKey [str "# comment", str ""]
          = [str "# comment", str ""] ++ [usernameEntry exampleKey,
              passwordEntry exampleKey (str "cHc="), emailEntry exampleKey]) := by
  refine ⟨⟨by decide, by decide, by decide, ?_⟩, ⟨by decide, ?_⟩⟩
  · exact (c3_replace_or_append (str "cHc=") exampleKey _ []).1
      (by decide) (by decide) (by decide)
  · exact (c3_replace_or_append (str "cHc=") exampleKey [] _).2 (by decide)

/-- C4: a line whose trimmed content starts with none of the three
sub-keys of any processed feed keeps its exact content and its position
after the whole rewrite: the line at index `i` is unchanged. -/
theorem c4_unrelated_lines_preserved (pw : Str) :
    ∀ (keys lines : List Str) (i : Nat) (l : Str), lines[i]? = some l →
      (∀ P ∈ keys, ∀ s : SubKey, lineMatches (keyOf P s) l = false) →
      (rewriteAll pw keys lines)[i]? = some l := by
  intro keys
  induction keys with
  | nil =>
    intro lines i l hget _
    exact hget
  | cons Q ks ih =>
    intro lines i l hget hno
    rw [rewriteAll_cons]
    apply ih _ _ _ ?_ (fun P hP => hno P (List.mem_cons_of_mem _ hP))
    have hlen : i < lines.length := (List.getElem?_eq_some_iff.mp hget).1
    have hm : (lines.map (rewriteLine pw Q))[i]? = some l := by
      rw [List.getElem?_map, hget]
      simp only [Option.map_some']
      rw [rewriteLine_of_never (fun s => hno Q (List.mem_cons_self _ _) s)]
    simp only [processFeed]
    rw [List.getElem?_append_left, List.getElem?_append_left, List.getElem?_append_left]
    · exact hm
    · simpa using hlen
    · simp only [List.length_append, List.length_map]
      omega
    · simp only [List.length_append, List.length_map]
      omega

theorem c4_unrelated_lines_preserved_witness :
    ([str "# a comment", str "", str "registry=https://registry.npmjs.org/"] :
        List Str)[2]? = some (str "registry=https://registry.npmjs.org/")
    ∧ (∀ P ∈ [exampleKey], ∀ s : SubKey,
        lineMatches (keyOf P s) (str "registry=https://registry.npmjs.org/") = false)
    ∧ (rewriteAll (str "cHc=") [exampleKey]
        [str "# a comment", str "", str "registry=https://registry.npmjs.org/"])[2]?
      = some (str "registry=https://registry.npmjs.org/") := by
  refine ⟨by decide, ?_, ?_⟩
  · intro P hP s
    rw [List.mem_singleton.mp hP]
    cases s <;> decide
  · refine c4_unrelated_lines_preserved (str "cHc=") [exampleKey] _ 2 _ (by decide) ?_
    intro P hP s
    rw [List.mem_singleton.mp hP]
    cases s <;> decide

theorem countP_match_ite_zero {P pw : Str} (hhd : ∃ r, P = '/' :: r) {s s2 : SubKey}
    (hne : s ≠ s2) (c : Prop) [Decidable c] :
    List.countP (fun l => lineMatches (keyOf P s) l)
      (if c then ([] : List Str) else [entryOf pw P s2]) = 0 := by
  split
  · rfl
  · have hf := lineMatches_entryOf_same_false hhd pw hne
    simp [List.countP_cons, hf]

/-- C7: when several lines' trimmed content starts with the same
sub-key prefix, every one of them is overwritten with the same
generated entry, and the number of matching lines is unchanged — the
duplicates are left in place, not collapsed. -/
theorem c7_duplicate_lines (pw P : Str) (s : SubKey) (lines : List Str)
    (hP : ValidKey P) (hdup : 2 ≤ countMatches (keyOf P s) lines) :
    countMatches (keyOf P s) (processFeed pw P lines)
      = countMatches (keyOf P s) lines ∧
    ∀ l ∈ lines, lineMatches (keyOf P s) l = true →
      rewriteLine pw P l = entryOf pw P s := by
  have hhd := validKey_head hP
  refine ⟨?_, fun l _ hm => rewriteLine_of_matches hm⟩
  have hex : ∃ l ∈ lines, lineMatches (keyOf P s) l = true := by
    by_contra hcon
    push_neg at hcon
    have hz : countMatches (keyOf P s) lines = 0 := by
      rw [countMatches, List.countP_eq_zero]
      intro a ha
      simp [hcon a ha]
    omega
  have hmapcount : List.countP (fun l => lineMatches (keyOf P s) l)
      (List.map (rewriteLine pw P) lines) = countMatches (keyOf P s) lines := by
    rw [List.countP_map, countMatches]
    refine List.countP_congr ?_
    intro l hl
    show lineMatches (keyOf P s) (rewriteLine pw P l) = true
      ↔ lineMatches (keyOf P s) l = true
    constructor
    · intro hfl
      by_contra hnl
      have hnl2 : lineMatches (keyOf P s) l = false := by
        cases hx : lineMatches (keyOf P s) l
        · rfl
        · exact absurd hx hnl
      rcases rewriteLine_cases pw P l with ⟨s2, hs2, hm2⟩ | ⟨heq, _⟩
      · have hss : s ≠ s2 := by
          rintro rfl
          rw [hm2] at hnl2
          simp at hnl2
        rw [hs2, lineMatches_entryOf_same_false hhd pw hss] at hfl
        simp at hfl
      · rw [heq, hnl2] at hfl
        simp at hfl
    · intro hl2
      rw [rewriteLine_of_matches hl2]
      exact lineMatches_entryOf_self hhd pw s
  rw [countMatches]
  simp only [processFeed, usernameKey_eq_keyOf, passwordKey_eq_keyOf, emailKey_eq_keyOf,
    usernameEntry_eq_entryOf pw, passwordEntry_eq_entryOf, emailEntry_eq_entryOf pw]
  rw [List.countP_append, List.countP_append, List.countP_append, hmapcount]
  cases s with
  | username =>
    rcases hex with ⟨l, hl, hm⟩
    have hflag : lines.any (fun l => lineMatches (keyOf P SubKey.username) l) = true :=
      List.any_eq_true.mpr ⟨l, hl, hm⟩
    rw [if_pos hflag,
      countP_match_ite_zero hhd (by decide), countP_match_ite_zero hhd (by decide)]
    simp
  | password =>
    rcases hex with ⟨l, hl, hm⟩
    have hmu : lineMatches (keyOf P SubKey.username) l = false :=
      lineMatches_exclusive (by decide) hm
    have hflag : lines.any (fun l => !lineMatches (keyOf P SubKey.username) l
        && lineMatches (keyOf P SubKey.password) l) = true := by
      refine List.any_eq_true.mpr ⟨l, hl, ?_⟩
      rw [hmu, hm]
      rfl
    rw [if_pos hflag,
      countP_match_ite_zero hhd (by decide), countP_match_ite_zero hhd (by decide)]
    simp
  | email =>
    rcases hex with ⟨l, hl, hm⟩
    have hmu : lineMatches (keyOf P SubKey.username) l = false :=
      lineMatches_exclusive (by decide) hm
    have hmp : lineMatches (keyOf P SubKey.password) l = false :=
      lineMatches_exclusive (by decide) hm
    have hflag : lines.any (fun l => !lineMatches (keyOf P SubKey.username) l
        && !lineMatches (keyOf P SubKey.password) l
        && lineMatches (keyOf P SubKey.email) l) = true := by
      refine List.any_eq_true.mpr ⟨l, hl, ?_⟩
      rw [hmu, hmp, hm]
      rfl
    rw [if_pos hflag,
      countP_match_ite_zero hhd (by decide), countP_match_ite_zero hhd (by decide)]
    simp

theorem c7_duplicate_lines_witness :
    2 ≤ countMatches (keyOf exampleKey SubKey.email)
        [exampleKey ++ str ":email=a", exampleKey ++ str ":email=b"]
    ∧ countMatches (keyOf exampleKey SubKey.email)
        (processFeed (str "cHc=") exampleKey
          [exampleKey ++ str ":email=a", exampleKey ++ str ":email=b"])
      = countMatches (keyOf exampleKey SubKey.email)
          [exampleKey ++ str ":email=a", exampleKey ++ str ":email=b"]
    ∧ ∀ l ∈ [exampleKey ++ str ":email=a", exampleKey ++ str ":email=b"],
        lineMatches (keyOf exampleKey SubKey.email) l = true →
        rewriteLine (str "cHc=") exampleKey l
          = entryOf (str "cHc=") exampleKey SubKey.email := by
  have hv : ValidKey exampleKey :=
    Or.inl ⟨str "myorg", str "myfeed", by decide, by decide, by decide⟩
  have h := c7_duplicate_lines (str "cHc=") exampleKey SubKey.email
    [exampleKey ++ str ":email=a", exampleKey ++ str ":email=b"] hv (by decide)
  exact ⟨by decide, h.1, h.2⟩

/-- C6: the URL matcher accepts exactly the strings of the two feed
templates (organization-scoped and project-scoped, literal scheme, host
and fixed segments, nonempty single-segment wildcards, trailing slash);
on success the organization capture is the organization segment, and in
particular the project-scoped example URL yields `myorg`. -/
theorem c6_url_matcher :
    (∀ s : Str, testFeedUrl s = true ↔
      ((∃ o f, isSeg o = true ∧ isSeg f = true ∧ s = orgFeedUrl o f) ∨
       (∃ o p f, isSeg o = true ∧ isSeg p = true ∧ isSeg f = true
          ∧ s = projFeedUrl o p f))) ∧
    (∀ o f, isSeg o = true → isSeg f = true →
      feedOrganization (orgFeedUrl o f) = some o) ∧
    (∀ o p f, isSeg o = true → isSeg p = true → isSeg f = true →
      feedOrganization (projFeedUrl o p f) = some o) ∧
    feedOrganization
        (str "https://pkgs.dev.azure.com/myorg/myproj/_packaging/myfeed/npm/registry/")
      = some (str "myorg") := by
  refine ⟨?_, ?_, ?_, by decide⟩
  · intro s
    constructor
    · intro h
      rw [testFeedUrl, Bool.or_eq_true] at h
      cases hx : execOrgFeed s with
      | some v =>
        obtain ⟨o, f⟩ := v
        obtain ⟨ho, hf, heq⟩ := execOrgFeed_some_shape hx
        exact Or.inl ⟨o, f, ho, hf, heq⟩
      | none =>
        cases hy : execProjFeed s with
        | some v =>
          obtain ⟨o, p, f⟩ := v
          obtain ⟨ho, hp, hf, heq⟩ := execProjFeed_some_shape hy
          exact Or.inr ⟨o, p, f, ho, hp, hf, heq⟩
        | none =>
          rw [hx, hy] at h
          simp at h
    · rintro (⟨o, f, ho, hf, rfl⟩ | ⟨o, p, f, ho, hp, hf, rfl⟩)
      · rw [testFeedUrl, execOrgFeed_templ ho hf]
        simp
      · rw [testFeedUrl, execProjFeed_templ ho hp hf]
        simp
  · intro o f ho hf
    rw [feedOrganization, execOrgFeed_templ ho hf]
  · intro o p f ho hp hf
    rw [feedOrganization, execOrgFeed_projFeedUrl ho hp hf, execProjFeed_templ ho hp hf]

theorem c6_url_matcher_witness :
    (isSeg (str "acme") = true ∧ isSeg (str "webapp") = true
      ∧ isSeg (str "tools") = true)
    ∧ feedOrganization (orgFeedUrl (str "acme") (str "tools")) = some (str "acme")
    ∧ feedOrganization (projFeedUrl (str "acme") (str "webapp") (str "tools"))
        = some (str "acme")
    ∧ testFeedUrl (orgFeedUrl (str "acme") (str "tools")) = true := by
  refine ⟨⟨by decide, by decide, by decide⟩, ?_, ?_, ?_⟩
  · exact c6_url_matcher.2.1 _ _ (by decide) (by decide)
  · exact c6_url_matcher.2.2.1 _ _ _ (by decide) (by decide) (by decide)
  · exact (c6_url_matcher.1 _).mpr
      (Or.inl ⟨str "acme", str "tools", by decide, by decide, rfl⟩)

/-- C2: the Config Rewriter is idempotent — rewriting the output of a
rewrite with the same token and the same list of valid feed URLs
reproduces that output byte for byte. -/
theorem c2_rewrite_idempotent (token : Str) (urls : List Str) (text : Str)
    (hne : urls ≠ []) (hval : ∀ u ∈ urls, testFeedUrl u = true) :
    updateNpmrcForUrls token urls (updateNpmrcForUrls token urls text)
      = updateNpmrcForUrls token urls text := by
  have hkeys : ∀ P ∈ urls.filterMap feedKey, ValidKey P := by
    intro P hP
    rcases List.mem_filterMap.mp hP with ⟨u, _, hu⟩
    exact feedKey_valid hu
  unfold updateNpmrcForUrls updateNpmrcText
  rw [splitNl_joinNl _ (rewriteAll_ne_nil _ _ _ (splitNl_ne_nil text))
      (rewriteAll_not_nl (btoa_not_nl token) _ hkeys (not_nl_mem_splitNl text))]
  congr 1
  exact rewriteAll_fixpoint hkeys
    (rewriteAll_lineOK_total _ _ hkeys)
    (fun Q hQ s => entryOf_mem_rewriteAll _ hkeys hQ s _)
    _ (fun Q hQ => hQ)

set_option maxRecDepth 16384 in
theorem c2_rewrite_idempotent_witness :
    (([exampleUrl] : List Str) ≠ []
      ∧ ∀ u ∈ [exampleUrl], testFeedUrl u = true)
    ∧ updateNpmrcForUrls exampleToken [exampleUrl]
        (updateNpmrcForUrls exampleToken [exampleUrl] (str ""))
      = updateNpmrcForUrls exampleToken [exampleUrl] (str "") := by
  refine ⟨⟨by decide, by decide⟩, ?_⟩
  exact c2_rewrite_idempotent exampleToken [exampleUrl] (str "") (by decide) (by decide)
